import Mathlib

/-!
Shallow embedding of the market_price_fetcher pipeline
(`src/main.py`, `src/db_utils.py`).

Modelling conventions:
- decimal prices and share counts are embedded as `ℚ` (the code uses Python
  floats; no claim depends on rounding);
- wall-clock datetimes are a record of calendar fields, since the code only
  ever zeroes the `second`/`microsecond` fields and compares timestamps;
- a pandas `DataFrame` returned by `pd.read_sql` is a column list plus a row
  list (`SharesDf`); the empty frame `pd.DataFrame()` produced by the error
  branch of `get_db_table` has an empty column list, which is what makes a
  later column access such as `shares[timestamp]` raise `KeyError`;
- external effects (the Binance fetch, the wall clock, success of a SQL
  write, the result of a SQL read) are passed in as explicit oracle
  arguments; the functions themselves are the deterministic rest of the code;
- a `try/except` block that only logs is embedded by returning the
  unchanged state on the failure branch.
-/

/-- Calendar timestamp as used by `datetime.now()` in `main.py`. Only the
`second` and `microsecond` fields are ever manipulated by the code. -/
structure DateTime where
  year : Nat
  month : Nat
  day : Nat
  hour : Nat
  minute : Nat
  second : Nat
  microsecond : Nat
deriving DecidableEq

/-- One row of the in-memory price table `self.df` with columns
`timestamp`, `pm`, `balance` (`main.py` line 63). -/
structure PriceRecord where
  timestamp : DateTime
  pm : String
  balance : ℚ
deriving DecidableEq

/-- One row of the external `shares_table` (columns `timestamp`, `pm`,
`shares`). Its timestamps are only compared for order, so they are embedded
as naturals (epoch instants after `pd.to_datetime`). -/
structure ShareRow where
  timestamp : Nat
  pm : String
  shares : ℚ
deriving DecidableEq

/-- One row of the NAV result frame built in `update_nav`: the merged frame
carries the price row fields, the joined `shares` value (`none` embeds the
NaN produced by a left join with no match) and the computed `nav`. -/
structure NavRow where
  timestamp : DateTime
  pm : String
  balance : ℚ
  shares : Option ℚ
  nav : ℚ
deriving DecidableEq

/-- A dataframe as returned by `pd.read_sql` in `db_utils.get_db_table`:
its column names plus its rows. A successful `select * from shares_table`
yields the table schema as columns; the `pd.DataFrame()` built on the error
branch has no columns at all. -/
structure SharesDf where
  cols : List String
  rows : List ShareRow
deriving DecidableEq

/-- The empty `pd.DataFrame()` of `db_utils.get_db_table`: no columns,
no rows. -/
def emptyDataFrame : SharesDf := ⟨[], []⟩

/-- `db_utils.get_db_table` (db_utils.py lines 44-53): runs the query and
returns its rows; on any exception it logs and returns `pd.DataFrame()`.
The outcome of the underlying `pd.read_sql` call is the explicit
`readResult` oracle argument. -/
def get_db_table (readResult : Except String SharesDf) : SharesDf :=
  match readResult with
  | Except.ok df => df
  | Except.error _ => emptyDataFrame

/-- `db_utils.df_to_table` (db_utils.py lines 56-65): append-mode persistence.
If the frame is empty it returns before issuing any write; otherwise it
issues one `to_sql(if_exists=append)` call, which appends on success and is
logged-and-swallowed on failure. `writeOk` is the oracle for the success of
that call; the returned flag records whether a write call was issued. -/
def df_to_table {α : Type} (writeOk : Bool) (dest : List α) (df : List α) :
    List α × Bool :=
  if df.isEmpty then (dest, false)
  else if writeOk then (dest ++ df, true)
  else (dest, true)

/-- `db_utils.df_replace_table` (db_utils.py lines 67-76): replace-mode
persistence. Same empty guard and error swallowing as `df_to_table`, but a
successful write replaces the destination content wholesale
(`to_sql(if_exists=replace)`). -/
def df_replace_table {α : Type} (writeOk : Bool) (dest : List α) (df : List α) :
    List α × Bool :=
  if df.isEmpty then (dest, false)
  else if writeOk then (df, true)
  else (dest, true)

/-- The `COIN_MAPPINGS` dict of `CryptoPriceTracker` (main.py lines 35-40):
trading symbol to canonical column name. -/
def coinMapping (symbol : String) : Option String :=
  if symbol = "BTCUSDT" then some "benchmark_btc"
  else if symbol = "ETHUSDT" then some "benchmark_eth"
  else if symbol = "SOLUSDT" then some "benchmark_sol"
  else none

/-- The configured symbol list, `list(self.COIN_MAPPINGS.keys())`. -/
def configuredSymbols : List String := ["BTCUSDT", "ETHUSDT", "SOLUSDT"]

/-- `CryptoPriceTracker.get_current_timestamp` (main.py lines 93-101):
`datetime.now().replace(second=0, microsecond=0)`. The wall-clock reading
`now` is the oracle argument. -/
def get_current_timestamp (now : DateTime) : DateTime :=
  { now with second := 0, microsecond := 0 }

/-- `CryptoPriceTracker.add_price_record` (main.py lines 103-133): reject a
symbol missing from `COIN_MAPPINGS`; otherwise fetch (the `fetch` oracle is
`get_ticker_price`, which returns `None` on any fetch error) and on success
append one row built from the truncated current timestamp. Returns the new
table and the boolean result. -/
def add_price_record (fetch : String → Option ℚ) (now : DateTime)
    (df : List PriceRecord) (symbol : String) : List PriceRecord × Bool :=
  match coinMapping symbol with
  | none => (df, false)
  | some pm =>
    match fetch symbol with
    | none => (df, false)
    | some price =>
      (df ++ [⟨get_current_timestamp now, pm, price⟩], true)

/-- Loop body of `CryptoPriceTracker.add_multiple_prices` (main.py lines
148-152): run `add_price_record` on each symbol in order, counting
successes. `clock i` is the wall-clock reading during iteration `i`. -/
def add_multiple_go (fetch : String → Option ℚ) (clock : Nat → DateTime) :
    List String → Nat → List PriceRecord → List PriceRecord × Nat
  | [], _, df => (df, 0)
  | s :: rest, i, df =>
    let step := add_price_record fetch (clock i) df s
    let next := add_multiple_go fetch clock rest (i + 1) step.1
    (next.1, next.2 + (if step.2 then 1 else 0))

/-- `CryptoPriceTracker.add_multiple_prices` (main.py lines 135-154) on an
explicit symbol list: returns the grown table and the success count. -/
def add_multiple_prices (fetch : String → Option ℚ) (clock : Nat → DateTime)
    (symbols : List String) (df : List PriceRecord) : List PriceRecord × Nat :=
  add_multiple_go fetch clock symbols 0 df

/-- An arbitrary sequence of `add_price_record` calls within one cycle, each
with its own wall-clock reading: the table evolution of the price record
table during a cycle. -/
def run_price_appends (fetch : String → Option ℚ) :
    List (String × DateTime) → List PriceRecord → List PriceRecord
  | [], df => df
  | (s, now) :: ops, df =>
    run_price_appends fetch ops (add_price_record fetch now df s).1

/-- `CryptoPriceTracker.get_latest_price` (main.py lines 165-178): filter the
table on `pm`, return `None` when the filtered frame is empty, else the
`balance` of its positionally last row (`iloc[-1]`). -/
def get_latest_price (df : List PriceRecord) (pm : String) : Option ℚ :=
  let filtered := df.filter (fun r => r.pm == pm)
  filtered.getLast?.map PriceRecord.balance

/-- `CryptoPriceTracker.save_to_db` (main.py lines 200-204): append-mode
persistence of the price table into `balance_all_consolidated`. -/
def save_to_db (writeOk : Bool) (dest : List PriceRecord)
    (df : List PriceRecord) : List PriceRecord × Bool :=
  df_to_table writeOk dest df

/-- Descending order on share rows by timestamp, the sort key of
`shares.sort_values(by=timestamp, ascending=False)` (main.py line 212). -/
def shareLater (a b : ShareRow) : Prop := b.timestamp ≤ a.timestamp

instance : DecidableRel shareLater := fun a b => Nat.decLe b.timestamp a.timestamp

instance : IsTotal ShareRow shareLater := ⟨fun a b => Nat.le_total b.timestamp a.timestamp⟩

instance : IsTrans ShareRow shareLater := ⟨fun _ _ _ h h2 => Nat.le_trans h2 h⟩

/-- `shares.sort_values(by=timestamp, ascending=False)`: a descending sort
by timestamp. The source (numpy quicksort) leaves the relative order of
equal timestamps implementation-defined; the model fixes one concrete
descending sort, which is one of the admitted behaviours. -/
def sort_values_desc (shares : List ShareRow) : List ShareRow :=
  List.insertionSort shareLater shares

/-- `drop_duplicates(subset=pm)` with the pandas default `keep=first`:
keep each row whose `pm` has not been seen before it. -/
def drop_duplicates_pm (seen : List String) :
    List ShareRow → List ShareRow
  | [] => []
  | r :: rest =>
    if r.pm ∈ seen then drop_duplicates_pm seen rest
    else r :: drop_duplicates_pm (r.pm :: seen) rest

/-- The latest-shares projection of `update_nav` (main.py line 212):
sort descending by timestamp, then keep the first row per `pm`. -/
def latest_shares (shares : List ShareRow) : List ShareRow :=
  drop_duplicates_pm [] (sort_values_desc shares)

/-- `pd.merge(self.df, right, on=pm, how=left)` (main.py line 214) where
`right` is a list of `(pm, shares)` pairs: for each left row in order, emit
one output per matching right row, or a single row with a NaN (`none`)
shares value when there is no match. -/
def merge_left_on_pm (prices : List PriceRecord) (right : List (String × ℚ)) :
    List (PriceRecord × Option ℚ) :=
  prices.flatMap (fun p =>
    if (right.filter (fun q => q.1 == p.pm)).isEmpty then [(p, none)]
    else (right.filter (fun q => q.1 == p.pm)).map (fun q => (p, some q.2)))

/-- The row lambda applied on main.py lines 215-218:
`0 if pd.isna(shares) or shares == 0 else balance / shares`. -/
def nav_of (balance : ℚ) (sh : Option ℚ) : ℚ :=
  match sh with
  | none => 0
  | some s => if s = 0 then 0 else balance / s

/-- The NAV computation of `update_nav` (main.py lines 212-218): left-join
the price table against `latest_shares[[pm, shares]]` and compute the `nav`
column row by row. -/
def update_nav_rows (prices : List PriceRecord) (shares : List ShareRow) :
    List NavRow :=
  (merge_left_on_pm prices
      ((latest_shares shares).map (fun r => (r.pm, r.shares)))).map
    (fun pr => ⟨pr.1.timestamp, pr.1.pm, pr.1.balance, pr.2,
                nav_of pr.1.balance pr.2⟩)

/-- `CryptoPriceTracker.update_nav` (main.py lines 206-224) acting on the
`nav_table` store content. The body runs under one `try/except` that only
logs: reading `shares[timestamp]` (line 210), `drop_duplicates(subset=pm)`
(line 212) and `latest_shares[[pm, shares]]` (line 214) each raise a
`KeyError` when the corresponding column is absent — in particular when the
read failed and `get_db_table` returned the column-less `pd.DataFrame()` —
and then nothing is computed or written. On the success path the result is
persisted with `df_to_table`, i.e. in append mode. -/
def update_nav (writeOk : Bool) (prices : List PriceRecord)
    (readResult : Except String SharesDf) (nav_table : List NavRow) :
    List NavRow :=
  let shares := get_db_table readResult
  if "timestamp" ∈ shares.cols then
    if "pm" ∈ shares.cols then
      if "shares" ∈ shares.cols then
        (df_to_table writeOk nav_table (update_nav_rows prices shares.rows)).1
      else nav_table
    else nav_table
  else nav_table

/-- The column list of a successful `select * from shares_table` read. -/
def sharesSchema : List String := ["timestamp", "pm", "shares"]

/-! Shared concrete example inputs. -/

/-- Example wall-clock instant t1. -/
def dtT1 : DateTime := ⟨2026, 10, 12, 9, 0, 0, 0⟩

/-- Example wall-clock instant t2, one minute after `dtT1`. -/
def dtT2 : DateTime := ⟨2026, 10, 12, 9, 1, 0, 0⟩

/-- The price table of the spec example for `latest(asset)`:
records (t1, A, 10), (t2, A, 12), (t1, B, 5) appended in that order. -/
def exampleTableC6 : List PriceRecord :=
  [⟨dtT1, "A", 10⟩, ⟨dtT2, "A", 12⟩, ⟨dtT1, "B", 5⟩]

/-! General helper lemmas. -/

/-- The head of a filtered list is the first element satisfying the
predicate. -/
theorem head_filter_eq_find {α : Type} (p : α → Bool) (l : List α) :
    (l.filter p).head? = l.find? p := by
  induction l with
  | nil => rfl
  | cons a t ih =>
    by_cases h : p a
    · simp [List.filter_cons, List.find?_cons, h]
    · simp [List.filter_cons, List.find?_cons, h, ih]

/-- The last element of a filtered list is the first match in the reversed
list. -/
theorem getLast_filter_eq_find_reverse {α : Type} (p : α → Bool) (l : List α) :
    (l.filter p).getLast? = l.reverse.find? p := by
  rw [List.getLast?_eq_head?_reverse, ← List.filter_reverse, head_filter_eq_find]

/-! Claim theorems. -/

/-- Claim C6: `get_latest_price` returns the balance of the most recently
appended matching record — recency by table position (first match in the
reversed table), not by timestamp — and the missing marker (`none`) when no
record for the asset exists; on the spec example table it returns 12 for A
and 5 for B. -/
theorem get_latest_price_last_appended :
    (∀ (df : List PriceRecord) (pm : String),
        get_latest_price df pm
          = (df.reverse.find? (fun r => r.pm == pm)).map PriceRecord.balance)
    ∧ get_latest_price exampleTableC6 "A" = some 12
    ∧ get_latest_price exampleTableC6 "B" = some 5
    ∧ get_latest_price exampleTableC6 "C" = none := by
  refine ⟨fun df pm => ?_, by decide, by decide, by decide⟩
  simp only [get_latest_price, getLast_filter_eq_find_reverse]

/-- Claim C7: both persistence write modes, given an empty record set,
return before issuing any write call (flag `false`) and leave the
destination table unchanged, for any outcome the write oracle would have
had. -/
theorem persistence_empty_noop {α : Type} :
    ∀ (writeOk : Bool) (dest : List α),
      df_to_table writeOk dest [] = (dest, false)
      ∧ df_replace_table writeOk dest [] = (dest, false) := by
  intro writeOk dest
  exact ⟨rfl, rfl⟩

/-- Claim C8: the table read never propagates a fault: on a successful read
it returns exactly the rows read, and on any read failure it returns the
empty result frame, so the caller always receives a value. -/
theorem get_db_table_never_raises :
    (∀ df : SharesDf, get_db_table (Except.ok df) = df)
    ∧ (∀ e : String, get_db_table (Except.error e) = emptyDataFrame) :=
  ⟨fun _ => rfl, fun _ => rfl⟩

/-- Claim C10: on a symbol absent from `COIN_MAPPINGS`, `add_price_record`
returns failure with the table unchanged, and its result does not depend on
the fetch oracle at all — no price fetch is attempted. -/
theorem add_price_record_unmapped (fetch fetch2 : String → Option ℚ)
    (now : DateTime) (df : List PriceRecord) (symbol : String)
    (h : coinMapping symbol = none) :
    add_price_record fetch now df symbol = (df, false)
    ∧ add_price_record fetch now df symbol
        = add_price_record fetch2 now df symbol := by
  constructor
  · simp [add_price_record, h]
  · simp [add_price_record, h]

/-- Witness for C10 at the concrete unmapped symbol DOGEUSDT, with two
fetch oracles that disagree everywhere. -/
theorem add_price_record_unmapped_witness :
    add_price_record (fun _ => some 1) dtT1 [] "DOGEUSDT" = ([], false)
    ∧ add_price_record (fun _ => some 1) dtT1 [] "DOGEUSDT"
        = add_price_record (fun _ => none) dtT1 [] "DOGEUSDT" :=
  add_price_record_unmapped (fun _ => some 1) (fun _ => none) dtT1 []
    "DOGEUSDT" (by decide)

/-- Claim C2 (counterexample): the NAV persistence is not replace-all. With
a stale row already in `nav_table`, a successful `update_nav` leaves the
destination different from the computed record set — the prior content is
retained, not discarded. -/
theorem update_nav_not_replace_cex :
    update_nav true [⟨dtT1, "x", 100⟩] (Except.ok ⟨sharesSchema, []⟩)
        [⟨dtT1, "stale", 1, none, 0⟩]
      ≠ update_nav_rows [⟨dtT1, "x", 100⟩] [] := by decide

/-- Claim C2 (amended): `update_nav` persists the NAV output through
`df_to_table`, i.e. in append mode: after a successful NAV persistence step
the destination table holds its prior content followed by the computed
record set. The replace-all helper `df_replace_table` exists but is never
invoked by the pipeline. -/
theorem update_nav_appends_to_nav_table (prices : List PriceRecord)
    (srows : List ShareRow) (nav_table : List NavRow) :
    update_nav true prices (Except.ok ⟨sharesSchema, srows⟩) nav_table
      = nav_table ++ update_nav_rows prices srows := by
  by_cases h : (update_nav_rows prices srows).isEmpty
  · rw [List.isEmpty_iff] at h
    simp [update_nav, get_db_table, df_to_table, sharesSchema, h]
  · simp [update_nav, get_db_table, df_to_table, sharesSchema, h]

/-- Claim C3 (counterexample): after a failed shares-table read, the NAV
step does not drive NAV to the zero-fallback value: the column-less empty
result makes the timestamp-column access fail inside the guarded block, so
no NAV row is produced at all — the table stays empty instead of holding the
zero-fallback row for the fetched asset. -/
theorem update_nav_read_failure_cex :
    update_nav true [⟨dtT1, "benchmark_btc", 100⟩] (Except.error "read failed") [] = []
    ∧ update_nav true [⟨dtT1, "benchmark_btc", 100⟩] (Except.error "read failed") []
        ≠ [⟨dtT1, "benchmark_btc", 100, none, 0⟩] :=
  ⟨rfl, by decide⟩

/-- Claim C3 (amended): when the shares-table read fails, `update_nav`
receives the column-less empty result set, the timestamp-column access
raises inside the guarded block, the error is caught and logged, and the
NAV table is left exactly unchanged — NAV computation does not run and no
zero-fallback rows are produced. -/
theorem update_nav_read_failure_leaves_table (writeOk : Bool)
    (prices : List PriceRecord) (e : String) (nav_table : List NavRow) :
    update_nav writeOk prices (Except.error e) nav_table = nav_table := rfl

/-- Truncation invariant transported through one `add_price_record` call:
every row of the output table is either a pre-existing row or carries a
timestamp with zeroed second and microsecond fields. -/
theorem add_price_record_mem (fetch : String → Option ℚ) (now : DateTime)
    (df : List PriceRecord) (symbol : String) (r : PriceRecord)
    (hr : r ∈ (add_price_record fetch now df symbol).1) :
    r ∈ df ∨ (r.timestamp.second = 0 ∧ r.timestamp.microsecond = 0) := by
  unfold add_price_record at hr
  cases hm : coinMapping symbol with
  | none => rw [hm] at hr; exact Or.inl hr
  | some pm =>
    rw [hm] at hr
    cases hf : fetch symbol with
    | none => rw [hf] at hr; exact Or.inl hr
    | some price =>
      rw [hf] at hr
      simp only [List.mem_append, List.mem_singleton] at hr
      rcases hr with hr | hr
      · exact Or.inl hr
      · subst hr
        exact Or.inr ⟨rfl, rfl⟩

/-- Truncation invariant through any run of `add_price_record` calls,
generalized over a starting table already satisfying it. -/
theorem run_price_appends_truncated (fetch : String → Option ℚ)
    (ops : List (String × DateTime)) :
    ∀ df : List PriceRecord,
      (∀ r ∈ df, r.timestamp.second = 0 ∧ r.timestamp.microsecond = 0) →
      ∀ r ∈ run_price_appends fetch ops df,
        r.timestamp.second = 0 ∧ r.timestamp.microsecond = 0 := by
  induction ops with
  | nil => intro df hdf r hr; exact hdf r hr
  | cons op ops ih =>
    intro df hdf r hr
    obtain ⟨s, now⟩ := op
    refine ih (add_price_record fetch now df s).1 ?_ r hr
    intro x hx
    rcases add_price_record_mem fetch now df s x hx with h | h
    · exact hdf x h
    · exact h

/-- Claim C5: starting from the empty cycle table, after any sequence of
`add_price_record` calls (each with its own wall-clock reading), every
record in the price record table has a timestamp truncated to whole
minutes: second and microsecond are zero. -/
theorem price_records_truncated_invariant (fetch : String → Option ℚ)
    (ops : List (String × DateTime)) (r : PriceRecord)
    (hr : r ∈ run_price_appends fetch ops []) :
    r.timestamp.second = 0 ∧ r.timestamp.microsecond = 0 :=
  run_price_appends_truncated fetch ops [] (fun x hx => absurd hx (List.not_mem_nil x)) r hr

/-- Witness for C5: one concrete append from a wall clock reading
9:41:37.123456 yields the record stamped 9:41:00.000000. -/
theorem price_records_truncated_invariant_witness :
    (⟨⟨2026, 10, 12, 9, 41, 0, 0⟩, "benchmark_btc", 100⟩ : PriceRecord)
      ∈ run_price_appends (fun _ => some 100)
          [("BTCUSDT", ⟨2026, 10, 12, 9, 41, 37, 123456⟩)] []
    ∧ ((⟨⟨2026, 10, 12, 9, 41, 0, 0⟩, "benchmark_btc", 100⟩ : PriceRecord).timestamp.second = 0
       ∧ (⟨⟨2026, 10, 12, 9, 41, 0, 0⟩, "benchmark_btc", 100⟩ : PriceRecord).timestamp.microsecond = 0) :=
  ⟨by decide,
   price_records_truncated_invariant (fun _ => some 100)
     [("BTCUSDT", ⟨2026, 10, 12, 9, 41, 37, 123456⟩)]
     ⟨⟨2026, 10, 12, 9, 41, 0, 0⟩, "benchmark_btc", 100⟩ (by decide)⟩

/-! Lemmas on the latest-shares projection. -/

/-- Share-row membership is preserved by the descending sort. -/
theorem mem_sort_values_desc {x : ShareRow} {l : List ShareRow} :
    x ∈ sort_values_desc l ↔ x ∈ l :=
  (List.perm_insertionSort shareLater l).mem_iff

/-- The descending sort is sorted for `shareLater`. -/
theorem sorted_sort_values_desc (l : List ShareRow) :
    (sort_values_desc l).Pairwise shareLater :=
  List.sorted_insertionSort shareLater l

/-- The pm column of the descending sort is a permutation of the original
pm column, hence has the same members. -/
theorem mem_map_pm_sort_values_desc {p : String} {l : List ShareRow} :
    p ∈ (sort_values_desc l).map ShareRow.pm ↔ p ∈ l.map ShareRow.pm :=
  ((List.perm_insertionSort shareLater l).map ShareRow.pm).mem_iff

/-- Rows kept by `drop_duplicates_pm` come from the input list. -/
theorem drop_duplicates_pm_subset (l : List ShareRow) :
    ∀ (seen : List String) (r : ShareRow),
      r ∈ drop_duplicates_pm seen l → r ∈ l := by
  induction l with
  | nil => intro seen r hr; exact absurd hr (List.not_mem_nil r)
  | cons a t ih =>
    intro seen r hr
    simp only [drop_duplicates_pm] at hr
    by_cases h : a.pm ∈ seen
    · rw [if_pos h] at hr
      exact List.mem_cons_of_mem a (ih seen r hr)
    · rw [if_neg h] at hr
      rcases List.mem_cons.mp hr with hr | hr
      · exact hr ▸ List.mem_cons_self a t
      · exact List.mem_cons_of_mem a (ih (a.pm :: seen) r hr)

/-- Rows kept by `drop_duplicates_pm` have a pm outside the seen set. -/
theorem drop_duplicates_pm_not_seen (l : List ShareRow) :
    ∀ (seen : List String) (r : ShareRow),
      r ∈ drop_duplicates_pm seen l → r.pm ∉ seen := by
  induction l with
  | nil => intro seen r hr; exact absurd hr (List.not_mem_nil r)
  | cons a t ih =>
    intro seen r hr
    simp only [drop_duplicates_pm] at hr
    by_cases h : a.pm ∈ seen
    · rw [if_pos h] at hr
      exact ih seen r hr
    · rw [if_neg h] at hr
      rcases List.mem_cons.mp hr with hr | hr
      · exact hr ▸ h
      · intro hs
        exact ih (a.pm :: seen) r hr (List.mem_cons_of_mem a.pm hs)

/-- On a descending-sorted list, every row kept by `drop_duplicates_pm` is
first of its pm, hence carries the maximum timestamp among its pm rows. -/
theorem drop_duplicates_pm_max (l : List ShareRow) (hs : l.Pairwise shareLater) :
    ∀ (seen : List String) (r : ShareRow),
      r ∈ drop_duplicates_pm seen l →
      ∀ x ∈ l, x.pm = r.pm → x.timestamp ≤ r.timestamp := by
  induction l with
  | nil => intro seen r hr; exact absurd hr (List.not_mem_nil r)
  | cons a t ih =>
    intro seen r hr x hx hpm
    obtain ⟨ha, ht⟩ := List.pairwise_cons.mp hs
    simp only [drop_duplicates_pm] at hr
    by_cases h : a.pm ∈ seen
    · rw [if_pos h] at hr
      rcases List.mem_cons.mp hx with hx | hx
      · exfalso
        exact drop_duplicates_pm_not_seen t seen r hr (hpm ▸ hx ▸ h)
      · exact ih ht seen r hr x hx hpm
    · rw [if_neg h] at hr
      rcases List.mem_cons.mp hr with hr | hr
      · subst hr
        rcases List.mem_cons.mp hx with hx | hx
        · exact hx ▸ le_refl _
        · exact ha x hx
      · rcases List.mem_cons.mp hx with hx | hx
        · exfalso
          have hns := drop_duplicates_pm_not_seen t (a.pm :: seen) r hr
          exact hns (hpm ▸ hx ▸ List.mem_cons_self a.pm seen)
        · exact ih ht (a.pm :: seen) r hr x hx hpm

/-- The pm column of `drop_duplicates_pm` output has no duplicates. -/
theorem drop_duplicates_pm_nodup (l : List ShareRow) :
    ∀ seen : List String,
      ((drop_duplicates_pm seen l).map ShareRow.pm).Nodup := by
  induction l with
  | nil => intro seen; simp [drop_duplicates_pm]
  | cons a t ih =>
    intro seen
    simp only [drop_duplicates_pm]
    by_cases h : a.pm ∈ seen
    · rw [if_pos h]
      exact ih seen
    · rw [if_neg h]
      rw [List.map_cons, List.nodup_cons]
      refine ⟨?_, ih (a.pm :: seen)⟩
      intro hmem
      obtain ⟨x, hx, hxpm⟩ := List.mem_map.mp hmem
      exact drop_duplicates_pm_not_seen t (a.pm :: seen) x hx
        (hxpm ▸ List.mem_cons_self a.pm seen)

/-- Every pm present in the input and not yet seen survives
`drop_duplicates_pm`. -/
theorem drop_duplicates_pm_covers (l : List ShareRow) :
    ∀ (seen : List String) (p : String),
      p ∈ l.map ShareRow.pm → p ∉ seen →
      p ∈ (drop_duplicates_pm seen l).map ShareRow.pm := by
  induction l with
  | nil => intro seen p hp; simp at hp
  | cons a t ih =>
    intro seen p hp hps
    simp only [drop_duplicates_pm]
    rcases List.mem_map.mp hp with ⟨x, hx, hxpm⟩
    by_cases h : a.pm ∈ seen
    · rw [if_pos h]
      rcases List.mem_cons.mp hx with hx | hx
      · exact absurd (hxpm ▸ hx ▸ h) hps
      · exact ih seen p (List.mem_map.mpr ⟨x, hx, hxpm⟩) hps
    · rw [if_neg h]
      rw [List.map_cons]
      by_cases hpa : p = a.pm
      · exact hpa ▸ List.mem_cons_self _ _
      · rcases List.mem_cons.mp hx with hx | hx
        · exfalso; apply hpa; rw [← hxpm, hx]
        · refine List.mem_cons_of_mem _ ?_
          refine ih (a.pm :: seen) p (List.mem_map.mpr ⟨x, hx, hxpm⟩) ?_
          intro hmem
          rcases List.mem_cons.mp hmem with hmem | hmem
          · exact hpa hmem
          · exact hps hmem

/-- In a list whose pm column has no duplicates, filtering on a present pm
yields exactly one row. -/
theorem filter_pm_length_one (L : List ShareRow) :
    ((L.map ShareRow.pm).Nodup) → ∀ p : String, p ∈ L.map ShareRow.pm →
      (L.filter (fun r => r.pm == p)).length = 1 := by
  induction L with
  | nil => intro _ p hp; simp at hp
  | cons a t ih =>
    intro hnd p hp
    rw [List.map_cons, List.nodup_cons] at hnd
    obtain ⟨hna, hnt⟩ := hnd
    rw [List.filter_cons]
    by_cases h : a.pm = p
    · simp only [h, beq_self_eq_true, if_true]
      have hempty : t.filter (fun r => r.pm == p) = [] := by
        rw [List.filter_eq_nil_iff]
        intro x hx hxp
        exact hna (h ▸ (beq_iff_eq.mp hxp) ▸ List.mem_map.mpr ⟨x, hx, rfl⟩)
      rw [hempty]
      rfl
    · have hb : (a.pm == p) = false := beq_eq_false_iff_ne.mpr h
      rw [hb]
      simp only [Bool.false_eq_true, if_false]
      obtain ⟨x, hx, hxpm⟩ := List.mem_map.mp hp
      rcases List.mem_cons.mp hx with hxa | hxt
      · exfalso; apply h; rw [← hxpm, hxa]
      · exact ih hnt p (List.mem_map.mpr ⟨x, hxt, hxpm⟩)

/-- Claim C4: for every asset present in the shares table, the latest-shares
projection keeps exactly one row for it, that row comes from the table and
carries the maximum timestamp among the rows of that asset, and when the
maximum is attained by a unique row, that row is the one selected. -/
theorem latest_shares_max_timestamp (shares : List ShareRow) (p : String)
    (hp : p ∈ shares.map ShareRow.pm) :
    ((latest_shares shares).filter (fun r => r.pm == p)).length = 1
    ∧ (∀ r ∈ latest_shares shares, r.pm = p →
        r ∈ shares ∧ ∀ x ∈ shares, x.pm = p → x.timestamp ≤ r.timestamp)
    ∧ (∀ x ∈ shares, x.pm = p →
        (∀ y ∈ shares, y.pm = p → y ≠ x → y.timestamp < x.timestamp) →
        ∀ r ∈ latest_shares shares, r.pm = p → r = x) := by
  have hmem : ∀ r ∈ latest_shares shares, r ∈ shares := fun r hr =>
    mem_sort_values_desc.mp (drop_duplicates_pm_subset (sort_values_desc shares) [] r hr)
  have hmax : ∀ r ∈ latest_shares shares, r.pm = p →
      ∀ x ∈ shares, x.pm = p → x.timestamp ≤ r.timestamp := by
    intro r hr hrp x hx hxp
    exact drop_duplicates_pm_max (sort_values_desc shares)
      (sorted_sort_values_desc shares) [] r hr x
      (mem_sort_values_desc.mpr hx) (hxp.trans hrp.symm)
  refine ⟨?_, fun r hr hrp => ⟨hmem r hr, hmax r hr hrp⟩, ?_⟩
  · refine filter_pm_length_one (latest_shares shares)
      (drop_duplicates_pm_nodup (sort_values_desc shares) []) p ?_
    exact drop_duplicates_pm_covers (sort_values_desc shares) [] p
      (mem_map_pm_sort_values_desc.mpr hp) (List.not_mem_nil p)
  · intro x hx hxp huniq r hr hrp
    by_contra hne
    have hlt := huniq r (hmem r hr) hrp hne
    have hle := hmax r hr hrp x hx hxp
    exact absurd (Nat.lt_of_le_of_lt hle hlt) (Nat.lt_irrefl _)

/-- Witness for C4 on the spec example shares table
[(0, x, 0), (1, x, 50)]: the asset x is present and the projection keeps
exactly one row for it. -/
theorem latest_shares_max_timestamp_witness :
    "x" ∈ ([⟨0, "x", 0⟩, ⟨1, "x", 50⟩] : List ShareRow).map ShareRow.pm
    ∧ ((latest_shares [⟨0, "x", 0⟩, ⟨1, "x", 50⟩]).filter
        (fun r => r.pm == "x")).length = 1 :=
  ⟨by decide,
   (latest_shares_max_timestamp [⟨0, "x", 0⟩, ⟨1, "x", 50⟩] "x" (by decide)).1⟩

/-! Lemmas on the left join. -/

/-- Filtering a pair list with duplicate-free keys on one key yields the
`find?` result as a list. -/
theorem filter_fst_of_nodup (right : List (String × ℚ)) :
    ((right.map Prod.fst).Nodup) → ∀ x : String,
      right.filter (fun q => q.1 == x) = (right.find? (fun q => q.1 == x)).toList := by
  induction right with
  | nil => intro _ x; rfl
  | cons a t ih =>
    intro hnd x
    rw [List.map_cons, List.nodup_cons] at hnd
    obtain ⟨hna, hnt⟩ := hnd
    rw [List.filter_cons, List.find?_cons]
    by_cases h : a.1 = x
    · simp only [h, beq_self_eq_true, if_true]
      have hempty : t.filter (fun q => q.1 == x) = [] := by
        rw [List.filter_eq_nil_iff]
        intro q hq hqx
        refine hna ?_
        rw [h, ← beq_iff_eq.mp hqx]
        exact List.mem_map.mpr ⟨q, hq, rfl⟩
      simp [hempty]
    · have hb : (a.1 == x) = false := beq_eq_false_iff_ne.mpr h
      rw [hb]
      simp only [Bool.false_eq_true, if_false]
      exact ih hnt x

/-- When the right side has duplicate-free keys, the left join produces
exactly one output per left row, in left order, pairing it with the unique
matching right value if any. -/
theorem merge_left_on_pm_eq (prices : List PriceRecord)
    (right : List (String × ℚ)) (hnd : (right.map Prod.fst).Nodup) :
    merge_left_on_pm prices right
      = prices.map (fun p =>
          (p, (right.find? (fun q => q.1 == p.pm)).map Prod.snd)) := by
  induction prices with
  | nil => rfl
  | cons p t ih =>
    unfold merge_left_on_pm at ih ⊢
    rw [List.flatMap_cons, ih, List.map_cons]
    have hsingle :
        (if (right.filter (fun q => q.1 == p.pm)).isEmpty
         then [(p, (none : Option ℚ))]
         else (right.filter (fun q => q.1 == p.pm)).map (fun q => (p, some q.2)))
          = [(p, (right.find? (fun q => q.1 == p.pm)).map Prod.snd)] := by
      rw [filter_fst_of_nodup right hnd p.pm]
      cases hf : right.find? (fun q => q.1 == p.pm) with
      | none => rfl
      | some q => rfl
    rw [hsingle]
    rfl

/-- The pm keys of the latest-shares pair projection are duplicate-free. -/
theorem latest_shares_pairs_nodup (shares : List ShareRow) :
    (((latest_shares shares).map (fun r => (r.pm, r.shares))).map Prod.fst).Nodup := by
  rw [List.map_map]
  exact drop_duplicates_pm_nodup (sort_values_desc shares) []

/-- The NAV rows as a per-price-row map: each price row becomes exactly one
NAV row, joined with the unique latest-shares row of its pm if any, with
nav 0 when the joined shares value is absent or zero and the ratio
otherwise. -/
theorem update_nav_rows_eq_map (prices : List PriceRecord)
    (shares : List ShareRow) :
    update_nav_rows prices shares
      = prices.map (fun p =>
          match (latest_shares shares).find? (fun r => r.pm == p.pm) with
          | none => ⟨p.timestamp, p.pm, p.balance, none, 0⟩
          | some r => ⟨p.timestamp, p.pm, p.balance, some r.shares,
                       if r.shares = 0 then 0 else p.balance / r.shares⟩) := by
  unfold update_nav_rows
  rw [merge_left_on_pm_eq prices _ (latest_shares_pairs_nodup shares)]
  rw [List.map_map]
  refine List.map_congr_left ?_
  intro p _
  simp only [Function.comp_apply]
  rw [List.find?_map]
  have hcomp : ((fun q : String × ℚ => q.1 == p.pm) ∘ fun r : ShareRow =>
      (r.pm, r.shares)) = (fun r : ShareRow => r.pm == p.pm) := rfl
  rw [hcomp]
  cases hf : (latest_shares shares).find? (fun r => r.pm == p.pm) with
  | none => rfl
  | some q =>
    show (⟨p.timestamp, p.pm, p.balance, some q.shares,
           nav_of p.balance (some q.shares)⟩ : NavRow) = _
    unfold nav_of
    rfl

/-- Claim C1: the NAV computation left-joins each price row against the
latest-shares projection on pm; every price row yields exactly one output
row (none is dropped when share data is missing), nav is 0 when the joined
shares value is absent or exactly zero and price divided by shares
otherwise, and the computation is total — no division-by-zero fault. The
three concrete conjuncts instantiate the spec examples: shares missing,
latest shares zero, and a genuine ratio 100 / 50 = 2. -/
theorem update_nav_left_join_zero_policy (prices : List PriceRecord)
    (shares : List ShareRow) :
    (update_nav_rows prices shares).length = prices.length
    ∧ update_nav_rows prices shares
      = prices.map (fun p =>
          match (latest_shares shares).find? (fun r => r.pm == p.pm) with
          | none => ⟨p.timestamp, p.pm, p.balance, none, 0⟩
          | some r => ⟨p.timestamp, p.pm, p.balance, some r.shares,
                       if r.shares = 0 then 0 else p.balance / r.shares⟩)
    ∧ update_nav_rows [⟨dtT1, "x", 100⟩] [] = [⟨dtT1, "x", 100, none, 0⟩]
    ∧ update_nav_rows [⟨dtT1, "x", 100⟩] [⟨0, "x", 0⟩]
        = [⟨dtT1, "x", 100, some 0, 0⟩]
    ∧ update_nav_rows [⟨dtT1, "x", 100⟩] [⟨0, "x", 0⟩, ⟨1, "x", 50⟩]
        = [⟨dtT1, "x", 100, some 50, 2⟩] := by
  refine ⟨?_, update_nav_rows_eq_map prices shares, by decide, by decide, ?_⟩
  · rw [update_nav_rows_eq_map prices shares, List.length_map]
  · rw [update_nav_rows_eq_map]
    have hls : latest_shares [⟨0, "x", 0⟩, ⟨1, "x", 50⟩] = [⟨1, "x", 50⟩] := by
      decide
    rw [List.map_cons, List.map_nil, hls]
    have hfind : ([⟨1, "x", 50⟩] : List ShareRow).find?
        (fun r => r.pm == ((⟨dtT1, "x", 100⟩ : PriceRecord)).pm)
          = some ⟨1, "x", 50⟩ := by decide
    rw [hfind]
    norm_num

/-! Lemmas for the multi-asset fetch step. -/

/-- Symbols mapped by `COIN_MAPPINGS` are exactly its three keys. -/
theorem coinMapping_keys (a : String) (ha : (coinMapping a).isSome = true) :
    a = "BTCUSDT" ∨ a = "ETHUSDT" ∨ a = "SOLUSDT" := by
  by_cases h1 : a = "BTCUSDT"
  · exact Or.inl h1
  · by_cases h2 : a = "ETHUSDT"
    · exact Or.inr (Or.inl h2)
    · by_cases h3 : a = "SOLUSDT"
      · exact Or.inr (Or.inr h3)
      · exfalso
        unfold coinMapping at ha
        rw [if_neg h1, if_neg h2, if_neg h3] at ha
        simp at ha

/-- `COIN_MAPPINGS` maps distinct configured symbols to distinct canonical
names. -/
theorem coinMapping_inj (a b : String) (ha : (coinMapping a).isSome = true)
    (hab : coinMapping a = coinMapping b) : a = b := by
  have hb : (coinMapping b).isSome = true := by rw [← hab]; exact ha
  rcases coinMapping_keys a ha with h | h | h <;>
    rcases coinMapping_keys b hb with g | g | g <;>
      subst h <;> subst g <;>
        first
        | rfl
        | exact absurd hab (by decide)

/-- Structure of the fetch loop: for fully configured symbol lists, the
success count is the number of symbols with a successful fetch, and the
grown table extends the starting one with exactly one row per successful
symbol, in symbol order, labelled with the mapped canonical name. -/
theorem add_multiple_go_spec (fetch : String → Option ℚ)
    (clock : Nat → DateTime) :
    ∀ symbols : List String, (∀ s ∈ symbols, (coinMapping s).isSome = true) →
    ∀ (i : Nat) (df : List PriceRecord),
      (add_multiple_go fetch clock symbols i df).2
        = (symbols.filter (fun s => (fetch s).isSome)).length
      ∧ (add_multiple_go fetch clock symbols i df).1.map PriceRecord.pm
        = df.map PriceRecord.pm
          ++ (symbols.filter (fun s => (fetch s).isSome)).map
              (fun s => (coinMapping s).getD "") := by
  intro symbols
  induction symbols with
  | nil =>
    intro _ i df
    exact ⟨rfl, by simp [add_multiple_go]⟩
  | cons s rest ih =>
    intro hconf i df
    have hs : (coinMapping s).isSome = true := hconf s (List.mem_cons_self s rest)
    obtain ⟨pm, hpm⟩ := Option.isSome_iff_exists.mp hs
    have hrest : ∀ x ∈ rest, (coinMapping x).isSome = true :=
      fun x hx => hconf x (List.mem_cons_of_mem s hx)
    cases hf : fetch s with
    | none =>
      have hstep : add_price_record fetch (clock i) df s = (df, false) := by
        unfold add_price_record
        rw [hpm, hf]
      obtain ⟨ihc, ihm⟩ := ih hrest (i + 1) df
      constructor
      · simp only [add_multiple_go, hstep, List.filter_cons, hf]
        simpa using ihc
      · simp only [add_multiple_go, hstep, List.filter_cons, hf]
        simpa using ihm
    | some price =>
      have hstep : add_price_record fetch (clock i) df s
          = (df ++ [⟨get_current_timestamp (clock i), pm, price⟩], true) := by
        unfold add_price_record
        rw [hpm, hf]
      obtain ⟨ihc, ihm⟩ :=
        ih hrest (i + 1) (df ++ [⟨get_current_timestamp (clock i), pm, price⟩])
      constructor
      · simp only [add_multiple_go, hstep, List.filter_cons, hf]
        simpa using ihc
      · simp only [add_multiple_go, hstep, List.filter_cons, hf]
        simp only [List.map_append] at ihm
        simp [ihm, hpm]

/-- Claim C9: on a run over configured symbols in which exactly one fetch
fails, the fetch step completes, returns success count N-1, appends exactly
N-1 records — one per successful symbol, in symbol order — and the failed
symbol's asset is absent from the table. -/
theorem add_multiple_prices_skip_failure (fetch : String → Option ℚ)
    (clock : Nat → DateTime) (symbols : List String)
    (hconf : ∀ s ∈ symbols, (coinMapping s).isSome = true)
    (hone : (symbols.filter (fun s => (fetch s).isNone)).length = 1) :
    (add_multiple_prices fetch clock symbols []).2 = symbols.length - 1
    ∧ (add_multiple_prices fetch clock symbols []).1.length = symbols.length - 1
    ∧ (add_multiple_prices fetch clock symbols []).1.map PriceRecord.pm
        = (symbols.filter (fun s => (fetch s).isSome)).map
            (fun s => (coinMapping s).getD "")
    ∧ ∀ sf ∈ symbols, fetch sf = none →
        ∀ r ∈ (add_multiple_prices fetch clock symbols []).1,
          r.pm ≠ (coinMapping sf).getD "" := by
  obtain ⟨hcount, hmap⟩ := add_multiple_go_spec fetch clock symbols hconf 0 []
  have hsplit : ∀ L : List String,
      (L.filter (fun s => (fetch s).isSome)).length
        + (L.filter (fun s => (fetch s).isNone)).length = L.length := by
    intro L
    induction L with
    | nil => rfl
    | cons a t iht =>
      rw [List.filter_cons, List.filter_cons]
      cases hfa : fetch a with
      | none =>
        simp only [hfa, Option.isSome_none, Option.isNone_none,
          Bool.false_eq_true, if_false, if_true, List.length_cons]
        omega
      | some v =>
        simp only [hfa, Option.isSome_some, Option.isNone_some,
          Bool.false_eq_true, if_false, if_true, List.length_cons]
        omega
  have hlen : (symbols.filter (fun s => (fetch s).isSome)).length
      = symbols.length - 1 := by
    have h := hsplit symbols
    rw [hone] at h
    omega
  have hmap0 : (add_multiple_prices fetch clock symbols []).1.map PriceRecord.pm
      = (symbols.filter (fun s => (fetch s).isSome)).map
          (fun s => (coinMapping s).getD "") := by
    simpa using hmap
  refine ⟨hcount.trans hlen, ?_, hmap0, ?_⟩
  · have h := congrArg List.length hmap0
    rw [List.length_map, List.length_map] at h
    exact h.trans hlen
  · intro sf hsf hfnone r hr heq
    have hrpm : r.pm ∈ (add_multiple_prices fetch clock symbols []).1.map
        PriceRecord.pm := List.mem_map.mpr ⟨r, hr, rfl⟩
    rw [hmap0] at hrpm
    obtain ⟨s, hsmem, hgs⟩ := List.mem_map.mp hrpm
    obtain ⟨hsmem2, hssome⟩ := List.mem_filter.mp hsmem
    have hssym : (coinMapping s).isSome = true := hconf s hsmem2
    have hsfsym : (coinMapping sf).isSome = true := hconf sf hsf
    obtain ⟨pms, hpms⟩ := Option.isSome_iff_exists.mp hssym
    obtain ⟨pmf, hpmf⟩ := Option.isSome_iff_exists.mp hsfsym
    have hvals : pms = pmf := by
      have h1 : (coinMapping s).getD "" = pms := by rw [hpms]; rfl
      have h2 : (coinMapping sf).getD "" = pmf := by rw [hpmf]; rfl
      rw [← h1, ← h2, hgs, heq]
    have hssf : s = sf := by
      refine coinMapping_inj s sf hssym ?_
      rw [hpms, hpmf, hvals]
    rw [hssf, hfnone] at hssome
    simp at hssome

/-- Witness for C9: three configured symbols with exactly the ETHUSDT fetch
failing; the run returns success count 2 and a table of 2 records. -/
theorem add_multiple_prices_skip_failure_witness :
    (add_multiple_prices (fun s => if s = "ETHUSDT" then none else some 100)
        (fun _ => dtT1) configuredSymbols []).2 = 2
    ∧ (add_multiple_prices (fun s => if s = "ETHUSDT" then none else some 100)
        (fun _ => dtT1) configuredSymbols []).1.length = 2 := by
  have h := add_multiple_prices_skip_failure
    (fun s => if s = "ETHUSDT" then none else some 100) (fun _ => dtT1)
    configuredSymbols (by decide) (by decide)
  exact ⟨h.1, h.2.1⟩
